import Mathlib

/-!
Verification development for the order-execution and risk engine of the
`autonomous-trader` repository.  The Lean definitions below are shallow
embeddings of the Python source: `fifo_position` (trader/db.py),
`round_dec` / `make_limit_price` (trader/executor.py), `size_for_trade`
(trader/policy_risk.py), `enforce_dca` / `llm_decide` (trader/agent_llm.py),
the retry core of `MexcClient` (trader/mexc_client.py), and the per-symbol
worker BUY/SELL paths, the order-status poller, and the execute-phase event
traces of `run_symbol` (trader/main.py).  Machine floats are modelled as
exact rationals; float literals such as `1e-18` become the corresponding
rationals.
-/

/-- Trade side, the `side` column of a trade row (`BUY`/`SELL`). -/
inductive Side
  | BUY
  | SELL
deriving DecidableEq, Repr

/-- One row of `load_trades_fifo_rows`: side, quantity, price, timestamp
(timestamps modelled as integers). -/
structure Trade where
  side : Side
  qty : ℚ
  price : ℚ
  ts : ℤ
deriving DecidableEq, Repr

/-- An open BUY lot, the dict `{"qty": .., "price": .., "ts": ..}` built by
`fifo_position` in trader/db.py. -/
structure Lot where
  qty : ℚ
  price : ℚ
  ts : ℤ
deriving DecidableEq, Repr

/-- The `1e-18` epsilon used by `fifo_position` in trader/db.py. -/
def eps : ℚ := 1 / 10 ^ 18

/-- The inner `while remaining > 1e-18 and lots:` loop of `fifo_position`
(trader/db.py lines 195-201), parameterised by the epsilon `ε`: consume the
oldest lot first, reducing the head lot by `min(head.qty, remaining)`; a head
lot left with quantity `≤ ε` is removed.  With `ε = eps` this is the code;
with `ε = 0` it is the exact FIFO consumption described by the spec. -/
def sellFromLots (ε : ℚ) : ℚ → List Lot → List Lot
  | _, [] => []
  | remaining, l :: ls =>
    if remaining ≤ ε then l :: ls
    else
      let take := min l.qty remaining
      if l.qty - take ≤ ε then sellFromLots ε (remaining - take) ls
      else { l with qty := l.qty - take } :: ls

/-- One iteration of the `for t in rows:` loop of `fifo_position`: a BUY
appends a new lot, a SELL consumes the oldest lots. -/
def fifoStep (ε : ℚ) (lots : List Lot) (t : Trade) : List Lot :=
  match t.side with
  | Side.BUY => lots ++ [⟨t.qty, t.price, t.ts⟩]
  | Side.SELL => sellFromLots ε t.qty lots

/-- The lots list after replaying `rows` through the loop of `fifo_position`. -/
def fifoLots (ε : ℚ) (rows : List Trade) : List Lot :=
  rows.foldl (fifoStep ε) []

/-- Sum of the remaining lot quantities (`sum(l["qty"] for l in lots)`). -/
def lotsQty (lots : List Lot) : ℚ :=
  (lots.map Lot.qty).sum

/-- Sum of quantity times price over the lots
(`sum(l["qty"] * l["price"] for l in lots)`). -/
def lotsNotional (lots : List Lot) : ℚ :=
  (lots.map fun l => l.qty * l.price).sum

/-- Quantity-weighted mean price of a list of lots. -/
def lotsVwap (lots : List Lot) : ℚ :=
  lotsNotional lots / lotsQty lots

/-- Shallow embedding of `fifo_position` (trader/db.py lines 182-208):
replay the trade rows through FIFO lot matching and return
`(qty_open, avg_entry_open, earliest_open_ts or None)`; a total open
quantity `≤ 1e-18` yields `(0.0, 0.0, None)`. -/
def fifo_position (rows : List Trade) : ℚ × ℚ × Option ℤ :=
  let lots := fifoLots eps rows
  let qty_open := lotsQty lots
  if qty_open ≤ eps then (0, 0, none)
  else (qty_open, lotsNotional lots / qty_open, lots.head?.map Lot.ts)

/-- Total BUY quantity of a trade list. -/
def buyTotal : List Trade → ℚ
  | [] => 0
  | t :: rest => (match t.side with | Side.BUY => t.qty | Side.SELL => 0) + buyTotal rest

/-- Total SELL quantity of a trade list. -/
def sellTotal : List Trade → ℚ
  | [] => 0
  | t :: rest => (match t.side with | Side.BUY => 0 | Side.SELL => t.qty) + sellTotal rest

/-- Shallow embedding of `round_dec` (trader/executor.py lines 5-7):
`Decimal(v).quantize(Decimal(10) ** -dp, rounding=ROUND_DOWN)`, i.e.
truncation toward zero to `dp` decimal places. -/
def round_dec (v : ℚ) (dp : ℕ) : ℚ :=
  (if 0 ≤ v then ((⌊v * 10 ^ dp⌋ : ℤ) : ℚ) else ((⌈v * 10 ^ dp⌉ : ℤ) : ℚ)) / 10 ^ dp

/-- Shallow embedding of `make_limit_price` (trader/executor.py lines 9-15). -/
def make_limit_price (price : ℚ) (side : Side) (bps : ℚ) : ℚ :=
  match side with
  | Side.BUY => price * (1 + bps / 10000)
  | Side.SELL => price * (1 - bps / 10000)

/-- Shallow embedding of `size_for_trade` (trader/policy_risk.py lines 22-30)
with the `available_quote` argument resolved by the caller (the `rs` /
`None` defaulting in the Python signature only selects which balance is
passed in): `budget = min(max_per, available_quote)`, zero if the budget or
the price is not positive, else `budget / price`. -/
def size_for_trade (price max_per available_quote : ℚ) : ℚ :=
  let budget := min max_per available_quote
  if budget ≤ 0 ∨ price ≤ 0 then 0
  else budget / price

/-- The decision record consumed by the engine (class `Decision` in
trader/agent_llm.py); `action` is kept as a raw string so that the
validation performed by `llm_decide` is a provable property rather than a
typing artefact. -/
structure Decision where
  action : String
  confidence : ℚ
  price_hint : Option ℚ
  reason : String
deriving DecidableEq, Repr

/-- Shallow embedding of `_enforce_dca` (trader/agent_llm.py lines 70-82):
with an open position, a BUY decision at a price above
`avg_entry * (1 - dca_step_bps/10000)` is downgraded to HOLD with
confidence 0.52. -/
def enforce_dca (px qty avg : ℚ) (d : Decision) (dca_step_bps : ℚ) : Decision :=
  if 0 < qty ∧ 0 < avg ∧ d.action = "BUY" ∧ avg * (1 - dca_step_bps / 10000) < px then
    { action := "HOLD", confidence := 52 / 100, price_hint := some px,
      reason := "above avg; DCA rule" }
  else d

/-- Raw fields extracted from the JSON object the decision call returned
(`data` in `llm_decide`): the `action` string, the confidence if it parsed
as a number (`None` models the `except: conf = 0.0` path), the price hint,
and the reason if present and non-empty. -/
structure RawDecision where
  action : String
  confidence : Option ℚ
  price_hint : Option ℚ
  reason : Option String
deriving Repr

/-- Shallow embedding of `llm_decide` (trader/agent_llm.py lines 96-136)
after the network/JSON layer: the argument `call` is `.error e` when
`_call_ollama` or `_strict_json` raised (network error, non-JSON output,
parse error), and `.ok data` with the parsed fields otherwise.  The action
is validated against `{BUY, SELL, HOLD}` (anything else becomes HOLD), the
confidence is clamped to `[0, 1]`, and `_enforce_dca` is applied; any
failure yields HOLD with confidence 0. -/
def llm_decide (call : Except String RawDecision) (px qty avg dca_step_bps : ℚ) : Decision :=
  match call with
  | Except.error e => { action := "HOLD", confidence := 0, price_hint := none,
                        reason := "LLM unavailable: " ++ e }
  | Except.ok data =>
    let action0 := data.action.toUpper
    let action := if action0 = "BUY" ∨ action0 = "SELL" ∨ action0 = "HOLD" then action0 else "HOLD"
    let conf := max 0 (min 1 (data.confidence.getD 0))
    let reason := match data.reason with
      | none => "auto"
      | some r => if r = "" then "auto" else r
    enforce_dca px qty avg
      { action := action, confidence := conf, price_hint := data.price_hint, reason := reason }
      dca_step_bps

/-- The exception classes used by `_should_retry` in trader/mexc_client.py:
the five transient `httpx` network fault classes, and `otherExc` standing
for any other exception (e.g. `HTTPStatusError` from `raise_for_status`, or
a JSON decode error). -/
inductive NetExc
  | connectError
  | connectTimeout
  | readTimeout
  | remoteProtocolError
  | writeError
  | otherExc
deriving DecidableEq, Repr

/-- The `isinstance` test of `_should_retry` over the transient classes. -/
def isTransient : NetExc → Bool
  | NetExc.otherExc => false
  | _ => true

/-- Shallow embedding of `MexcClient._should_retry`
(trader/mexc_client.py lines 36-50): retry on a transient network
exception, or on response status 429, 418 (vendor temporary ban), or any
5xx; everything else is not retried. -/
def should_retry (exc : Option NetExc) (respStatus : Option ℕ) : Bool :=
  match exc with
  | some e => isTransient e
  | none =>
    match respStatus with
    | some s => s == 429 || s == 418 || (500 ≤ s && s ≤ 599)
    | none => false

/-- The constructor default `backoff_base=0.5` of `MexcClient`. -/
def backoff_base : ℚ := 1 / 2

/-- The constructor default `backoff_cap=8.0` of `MexcClient`. -/
def backoff_cap : ℚ := 8

/-- Shallow embedding of `MexcClient._retry_after`
(trader/mexc_client.py lines 52-63): honor a numeric `Retry-After` header
(clamped below at 0) when present, else exponential backoff
`min(cap, base * 2^(attempt-1))` plus the sampled jitter `j`
(`random.uniform(0, 0.25)` is modelled by the parameter `j`). -/
def retry_after (header : Option ℚ) (attempt : ℕ) (j : ℚ) : ℚ :=
  match header with
  | some ra => max 0 ra
  | none => min backoff_cap (backoff_base * 2 ^ (attempt - 1)) + j

/-- Outcome of one HTTP attempt inside `MexcClient._signed`: either a
response with a status code and an optional numeric `Retry-After` header,
or a raised exception. -/
inductive Outcome
  | resp (status : ℕ) (retryAfterHeader : Option ℚ)
  | exc (e : NetExc)
deriving Repr

/-- Result of one iteration of the attempt loop in `MexcClient._signed`:
sleep `d` seconds and try again, return the parsed body, or surface a
terminal failure. -/
inductive StepRes
  | retryDelay (d : ℚ)
  | success
  | terminal
deriving DecidableEq, Repr

/-- Is this step result a retry? -/
def StepRes.isRetry : StepRes → Bool
  | StepRes.retryDelay _ => true
  | _ => false

/-- Shallow embedding of one iteration of the attempt loop of
`MexcClient._signed` (trader/mexc_client.py lines 66-111).  A response is
retried exactly when `_should_retry` says so, with the `_retry_after`
delay; otherwise `raise_for_status()` makes any `>= 400` status a terminal
error (the raised `HTTPStatusError` is not a transient class, so the
`except` branch breaks) and a success otherwise.  An exception is retried
only when it is transient and the attempt budget is not exhausted
(`attempt < self._max_retries`). -/
def signedStep (out : Outcome) (attempt maxRetries : ℕ) (j : ℚ) : StepRes :=
  match out with
  | Outcome.resp s ra =>
    if should_retry none (some s) then StepRes.retryDelay (retry_after ra attempt j)
    else if 400 ≤ s then StepRes.terminal
    else StepRes.success
  | Outcome.exc e =>
    if isTransient e && attempt < maxRetries then
      StepRes.retryDelay (retry_after none attempt j)
    else StepRes.terminal

/-- The `1e-12` dust threshold of the worker's SELL path
(trader/main.py line 234). -/
def dust : ℚ := 1 / 10 ^ 12

/-- Shallow embedding of the BUY branch of `run_symbol`
(trader/main.py lines 173-220), as a function from the cycle's inputs to
the submitted `(quantity, limit price)` — `none` when the cycle skips.
`live` is `mode == "live"`; `price` is the spot price from the features;
`free_quote` is the live wallet quote balance and `rs_usdt` the paper
balance. -/
def buyPath (live : Bool) (price pos_qty avg_entry dca_step_bps free_quote rs_usdt
    max_per fee_bps min_notional slippage_bps : ℚ) (dp_price dp_qty : ℕ) :
    Option (ℚ × ℚ) :=
  let limit_px := make_limit_price price Side.BUY slippage_bps
  let px := round_dec limit_px dp_price
  let wallet_q := if live then free_quote else rs_usdt
  let budget0 := min wallet_q max_per
  let budget := budget0 * max 0 (1 - fee_bps / 10000)
  if budget < min_notional ∨ px ≤ 0 then none
  else
    let unit := (1 : ℚ) / 10 ^ dp_qty
    let qty_fit := (⌊budget / px / unit⌋ : ℚ) * unit
    let qty_val := round_dec qty_fit dp_qty
    let notional := px * qty_val
    if qty_val ≤ 0 ∨ notional < min_notional then none
    else if 0 < pos_qty ∧ 0 < avg_entry ∧ avg_entry * (1 - dca_step_bps / 10000) < price then
      none
    else if live = true ∧ free_quote - 1 / 10 ^ 6 < notional then
      let qty_fit2 := max 0 (qty_val - unit)
      let qty_val2 := round_dec qty_fit2 dp_qty
      let notional2 := px * qty_val2
      if qty_val2 ≤ 0 ∨ notional2 < min_notional then none
      else some (qty_val2, px)
    else some (qty_val, px)

/-- The breakeven price `avg_entry * (1 + (2*fee_bps + min_profit_bps)/10000)`
computed in the SELL branch of `run_symbol` (trader/main.py line 256). -/
def breakevenPx (avg_entry fee_bps min_profit_bps : ℚ) : ℚ :=
  avg_entry * (1 + (2 * fee_bps + min_profit_bps) / 10000)

/-- The stop-loss condition `allow_stop` of the SELL branch
(trader/main.py line 259): the spot price has fallen to or below
`avg_entry * (1 - abs(stop_loss_pct))`. -/
def allowStop (price avg_entry stop_loss_pct : ℚ) : Bool :=
  decide (price ≤ avg_entry * (1 - |stop_loss_pct|))

/-- The time-stop condition `allow_time` of the SELL branch
(trader/main.py lines 260-263): false when `entry_ts` is `None`, else the
position age in minutes has reached `time_stop_min`. -/
def allowTime (age_min : Option ℚ) (time_stop_min : ℚ) : Bool :=
  match age_min with
  | none => false
  | some a => decide (time_stop_min ≤ a)

/-- The sizing and dust-guard part of the SELL branch of `run_symbol`
(trader/main.py lines 222-248), everything up to but excluding the profit
floor: cap the risk-target quantity by the live free base balance and by
the open FIFO position, skip when the position is dust (`<= 1e-12`), round
down, and skip when the notional is below the exchange minimum. -/
def sellSize (live : Bool) (price slippage_bps max_per free_base pos_qty min_notional : ℚ)
    (dp_price dp_qty : ℕ) : Option (ℚ × ℚ) :=
  let limit_px := make_limit_price price Side.SELL slippage_bps
  let px := round_dec limit_px dp_price
  let qty_f0 := size_for_trade px max_per max_per
  let qty_f1 := if live then min qty_f0 free_base else qty_f0
  if pos_qty ≤ dust then none
  else
    let qty_f := min qty_f1 pos_qty
    let qty_val := round_dec qty_f dp_qty
    let notional := px * qty_val
    if notional < min_notional ∨ qty_val ≤ 0 then none
    else some (qty_val, px)

/-- Shallow embedding of the SELL branch of `run_symbol`
(trader/main.py lines 222-269): the sizing/dust stage `sellSize` followed
by the position-aware profit floor, which skips a SELL whose spot price is
below breakeven unless the stop-loss or time-stop condition force-allows
it.  Returns the submitted `(quantity, limit price)`, `none` on skip. -/
def sellPath (live : Bool) (price slippage_bps max_per free_base pos_qty avg_entry
    min_notional fee_bps min_profit_bps stop_loss_pct time_stop_min : ℚ)
    (age_min : Option ℚ) (dp_price dp_qty : ℕ) : Option (ℚ × ℚ) :=
  match sellSize live price slippage_bps max_per free_base pos_qty min_notional dp_price dp_qty with
  | none => none
  | some (qty_val, px) =>
    if price < breakevenPx avg_entry fee_bps min_profit_bps ∧
        (allowStop price avg_entry stop_loss_pct || allowTime age_min time_stop_min) = false then
      none
    else some (qty_val, px)

/-- The fields of a DB-open order row as loaded by `fetch_open_orders`
(trader/db.py lines 152-161) that the status poller uses. -/
structure OrderRow where
  symbol : String
  side : Side
  price : Option ℚ
  qty : ℚ
  status : String
  client_order_id : String
deriving Repr

/-- One persisted effect of the status poller for one order: an inserted
aggregated trade row, or an order status update (with the optional price to
store). -/
inductive Effect
  | insertTrade (symbol : String) (side : Side) (price qty : ℚ) (cid : String)
  | setStatus (cid status : String) (price : Option ℚ)
deriving DecidableEq, Repr

/-- Is this effect an inserted trade row? -/
def Effect.isInsertTrade : Effect → Bool
  | Effect.insertTrade _ _ _ _ _ => true
  | _ => false

/-- The fill-price computation of `order_status_poller`
(trader/main.py line 444): `cquote / executed` when both are non-zero
(Python float truthiness), else the exchange-reported `price` field when
non-zero, else the stored limit price of the order row (0.0 when null). -/
def avg_fill_price (o : OrderRow) (executed cquote dprice : ℚ) : ℚ :=
  if executed ≠ 0 ∧ cquote ≠ 0 then cquote / executed
  else if dprice ≠ 0 then dprice
  else o.price.getD 0

/-- Shallow embedding of the per-order body of `order_status_poller`
(trader/main.py lines 421-467), as the ordered list of persisted effects:
on NEW/PARTIALLY_FILLED update price/status only; on FILLED with executed
quantity > 0 insert exactly one aggregated trade and then update the
status; on CANCELED/EXPIRED/REJECTED (and FILLED without executed
quantity) update the status only; any other status string persists
nothing. -/
def reconcileOrder (o : OrderRow) (status : String) (executed cquote dprice : ℚ) :
    List Effect :=
  let avg_px := avg_fill_price o executed cquote dprice
  let statusPx : Option ℚ := if executed ≠ 0 then some avg_px else none
  if status = "NEW" ∨ status = "PARTIALLY_FILLED" then
    [Effect.setStatus o.client_order_id status statusPx]
  else if status = "FILLED" ∨ status = "CANCELED" ∨ status = "EXPIRED" ∨ status = "REJECTED" then
    (if status = "FILLED" ∧ 0 < executed then
      [Effect.insertTrade o.symbol o.side avg_px executed o.client_order_id]
    else []) ++ [Effect.setStatus o.client_order_id status statusPx]
  else []

/-- Events of the execute phase of one `run_symbol` cycle
(trader/main.py lines 271-317), in program order. -/
inductive Ev
  | genClientId (cid : String)
  | placeOrder (cid : String)
  | setStatusDb (cid status : String)
  | insertTradeDb (cid : String)
  | setExchIdDb (cid exch : String)
  | insertOrderDb (cid exch status : String)
  | commit
deriving DecidableEq, Repr

/-- Is this event the network placement call (`client.new_order`)? -/
def Ev.isPlaceOrder : Ev → Bool
  | Ev.placeOrder _ => true
  | _ => false

/-- Is this event an `insert_order` row write? -/
def Ev.isInsertOrderDb : Ev → Bool
  | Ev.insertOrderDb _ _ _ => true
  | _ => false

/-- Is this event an `insert_trade` row write? -/
def Ev.isInsertTradeDb : Ev → Bool
  | Ev.insertTradeDb _ => true
  | _ => false

/-- The client order id `f"ai_{sym}_{int(time.time())}"`
(trader/main.py line 271). -/
def clientId (sym : String) (tsec : ℤ) : String :=
  "ai_" ++ sym ++ "_" ++ toString tsec

/-- The event trace of the execute phase in paper mode
(trader/main.py lines 271-281): generate the client id, then
`set_order_status(.., "FILLED", ..)` (an UPDATE on the orders table),
then `insert_trade`, then commit.  No network call and no `insert_order`
occur. -/
def paperExec (sym : String) (tsec : ℤ) : List Ev :=
  let cid := clientId sym tsec
  [Ev.genClientId cid, Ev.setStatusDb cid "FILLED", Ev.insertTradeDb cid, Ev.commit]

/-- The event trace of the execute phase in live mode
(trader/main.py lines 271, 284-310): generate the client id, place the
order on the exchange, then — only if the response carried an order id —
`set_order_exch_id` plus a commit, then insert the order row with status
NEW recording the client id and the (possibly empty) exchange id, then
commit. -/
def liveExec (sym : String) (tsec : ℤ) (exch_id : String) : List Ev :=
  let cid := clientId sym tsec
  [Ev.genClientId cid, Ev.placeOrder cid] ++
    (if exch_id ≠ "" then [Ev.setExchIdDb cid exch_id, Ev.commit] else []) ++
    [Ev.insertOrderDb cid exch_id "NEW", Ev.commit]

/-- Predicate: `x` is a natural multiple of the unit `u`. -/
def IsMulOf (u x : ℚ) : Prop := ∃ k : ℕ, x = (k : ℚ) * u

lemma IsMulOf.nonneg {u x : ℚ} (hu : 0 < u) (h : IsMulOf u x) : 0 ≤ x := by
  obtain ⟨k, rfl⟩ := h
  positivity

lemma IsMulOf.le_eps_iff {u x ε : ℚ} (hε : 0 ≤ ε) (hu : ε < u) (h : IsMulOf u x) :
    (x ≤ ε ↔ x = 0) := by
  obtain ⟨k, rfl⟩ := h
  cases k with
  | zero => simp [hε]
  | succ n =>
    have hu0 : 0 < u := lt_of_le_of_lt hε hu
    have h1 : u ≤ ((n + 1 : ℕ) : ℚ) * u := by
      have : (1 : ℚ) ≤ ((n + 1 : ℕ) : ℚ) := by exact_mod_cast Nat.succ_le_succ (Nat.zero_le n)
      nlinarith
    constructor
    · intro hle
      exact absurd (lt_of_le_of_lt (h1.trans hle) hu) (lt_irrefl u)
    · intro h0
      nlinarith

lemma IsMulOf.min_mul {u x y : ℚ} (hx : IsMulOf u x) (hy : IsMulOf u y) :
    IsMulOf u (min x y) := by
  rcases min_choice x y with h | h <;> rw [h]
  · exact hx
  · exact hy

lemma IsMulOf.sub {u x y : ℚ} (hu : 0 < u) (hx : IsMulOf u x) (hy : IsMulOf u y)
    (hxy : y ≤ x) : IsMulOf u (x - y) := by
  obtain ⟨k, rfl⟩ := hx
  obtain ⟨j, rfl⟩ := hy
  have hjk : j ≤ k := by
    have : (j : ℚ) ≤ (k : ℚ) := le_of_mul_le_mul_right hxy hu
    exact_mod_cast this
  refine ⟨k - j, ?_⟩
  push_cast [Nat.cast_sub hjk]
  ring

lemma IsMulOf.add {u x y : ℚ} (hx : IsMulOf u x) (hy : IsMulOf u y) :
    IsMulOf u (x + y) := by
  obtain ⟨k, rfl⟩ := hx
  obtain ⟨j, rfl⟩ := hy
  exact ⟨k + j, by push_cast; ring⟩

lemma lotsQty_nil : lotsQty [] = 0 := rfl

lemma lotsQty_cons (l : Lot) (ls : List Lot) : lotsQty (l :: ls) = l.qty + lotsQty ls := by
  simp [lotsQty]

lemma lotsQty_append (a b : List Lot) : lotsQty (a ++ b) = lotsQty a + lotsQty b := by
  simp [lotsQty]

lemma lotsNotional_cons (l : Lot) (ls : List Lot) :
    lotsNotional (l :: ls) = l.qty * l.price + lotsNotional ls := by
  simp [lotsNotional]

lemma lotsQty_isMulOf {u : ℚ} :
    ∀ lots : List Lot, (∀ l ∈ lots, IsMulOf u l.qty) → IsMulOf u (lotsQty lots)
  | [], _ => ⟨0, by simp [lotsQty_nil]⟩
  | l :: ls, h => by
    rw [lotsQty_cons]
    exact (h l (List.mem_cons_self l ls)).add
      (lotsQty_isMulOf ls fun x hx => h x (List.mem_cons_of_mem l hx))

lemma sellFromLots_eq_exact {u ε : ℚ} (hε : 0 ≤ ε) (hu : ε < u) :
    ∀ (lots : List Lot) (r : ℚ), IsMulOf u r →
      (∀ l ∈ lots, IsMulOf u l.qty ∧ 0 < l.qty) →
      sellFromLots ε r lots = sellFromLots 0 r lots ∧
      (∀ l ∈ sellFromLots 0 r lots, IsMulOf u l.qty ∧ 0 < l.qty)
  | [], r, _, _ => by simp [sellFromLots]
  | l :: ls, r, hr, hlots => by
    have hu0 : 0 < u := lt_of_le_of_lt hε hu
    have hl := hlots l (List.mem_cons_self l ls)
    have hls := fun x hx => hlots x (List.mem_cons_of_mem l hx)
    by_cases h0 : r = 0
    · subst h0
      rw [sellFromLots, sellFromLots, if_pos hε, if_pos le_rfl]
      exact ⟨rfl, hlots⟩
    · have hrε : ¬ r ≤ ε := fun hle => h0 ((hr.le_eps_iff hε hu).mp hle)
      have hr0 : ¬ r ≤ (0 : ℚ) := by
        intro hle
        exact h0 (le_antisymm hle (hr.nonneg hu0))
      have htake : IsMulOf u (min l.qty r) := hl.1.min_mul hr
      have hsub : IsMulOf u (l.qty - min l.qty r) :=
        hl.1.sub hu0 htake (min_le_left _ _)
      have hrsub : IsMulOf u (r - min l.qty r) :=
        hr.sub hu0 htake (min_le_right _ _)
      have hcond : (l.qty - min l.qty r ≤ ε) ↔ (l.qty - min l.qty r ≤ 0) := by
        rw [hsub.le_eps_iff hε hu]
        constructor
        · intro h; rw [h]
        · intro h
          exact le_antisymm h (sub_nonneg.mpr (min_le_left _ _))
      rw [sellFromLots, sellFromLots, if_neg hrε, if_neg hr0]
      by_cases hpop : l.qty - min l.qty r ≤ ε
      · rw [if_pos hpop, if_pos (hcond.mp hpop)]
        exact sellFromLots_eq_exact hε hu ls (r - min l.qty r) hrsub hls
      · rw [if_neg hpop, if_neg (fun h => hpop (hcond.mpr h))]
        refine ⟨rfl, fun x hx => ?_⟩
        rcases List.mem_cons.mp hx with h | h
        · subst h
          refine ⟨hsub, ?_⟩
          rcases lt_or_le 0 (l.qty - min l.qty r) with hgt | hle
          · exact hgt
          · exact absurd (hcond.mpr hle) hpop
        · exact hls x h

lemma sellFromLots_nonneg {ε : ℚ} :
    ∀ (lots : List Lot) (r : ℚ), (∀ l ∈ lots, 0 ≤ l.qty) →
      ∀ l ∈ sellFromLots ε r lots, 0 ≤ l.qty
  | [], r, _ => by simp [sellFromLots]
  | l :: ls, r, hlots => by
    have hl := hlots l (List.mem_cons_self l ls)
    have hls := fun x hx => hlots x (List.mem_cons_of_mem l hx)
    rw [sellFromLots]
    by_cases hstop : r ≤ ε
    · rw [if_pos hstop]; exact hlots
    · rw [if_neg hstop]
      by_cases hpop : l.qty - min l.qty r ≤ ε
      · rw [if_pos hpop]
        exact sellFromLots_nonneg ls (r - min l.qty r) hls
      · rw [if_neg hpop]
        intro x hx
        rcases List.mem_cons.mp hx with h | h
        · subst h
          exact sub_nonneg.mpr (min_le_left _ _)
        · exact hls x h

lemma lotsQty_sellFromLots_zero :
    ∀ (lots : List Lot) (r : ℚ), 0 ≤ r → r ≤ lotsQty lots → (∀ l ∈ lots, 0 ≤ l.qty) →
      lotsQty (sellFromLots 0 r lots) = lotsQty lots - r
  | [], r, hr0, hrle, _ => by
    rw [lotsQty_nil] at hrle
    have : r = 0 := le_antisymm hrle hr0
    simp [sellFromLots, this]
  | l :: ls, r, hr0, hrle, hlots => by
    have hl := hlots l (List.mem_cons_self l ls)
    have hls := fun x hx => hlots x (List.mem_cons_of_mem l hx)
    have hlsnn : 0 ≤ lotsQty ls := by
      have : ∀ x ∈ List.map Lot.qty ls, 0 ≤ x := by
        intro x hx
        obtain ⟨a, ha, rfl⟩ := List.mem_map.mp hx
        exact hls a ha
      exact List.sum_nonneg this
    rw [lotsQty_cons] at hrle
    rw [sellFromLots]
    by_cases hstop : r ≤ (0 : ℚ)
    · have : r = 0 := le_antisymm hstop hr0
      rw [if_pos hstop, lotsQty_cons, this]
      ring
    · rw [if_neg hstop]
      by_cases hpop : l.qty - min l.qty r ≤ (0 : ℚ)
      · have htake : min l.qty r = l.qty := by
          have h1 : min l.qty r ≤ l.qty := min_le_left _ _
          have h2 : l.qty ≤ min l.qty r := by linarith
          exact le_antisymm h1 h2
        have hlq : l.qty ≤ r := by
          have := min_le_right l.qty r
          rw [htake] at this
          exact this
        rw [if_pos hpop, htake,
          lotsQty_sellFromLots_zero ls (r - l.qty) (by linarith) (by linarith) hls,
          lotsQty_cons]
        ring
      · have htake : min l.qty r = r := by
          rcases le_total l.qty r with h | h
          · rw [min_eq_left h] at hpop
            simp at hpop
          · exact min_eq_right h
        rw [if_neg hpop, lotsQty_cons, htake, lotsQty_cons]
        ring

lemma lotsQty_sellFromLots_le {ε : ℚ} (hε : 0 ≤ ε) :
    ∀ (lots : List Lot) (r : ℚ), (∀ l ∈ lots, 0 ≤ l.qty) →
      lotsQty (sellFromLots ε r lots) ≤ lotsQty lots
  | [], r, _ => le_rfl
  | l :: ls, r, hlots => by
    have hl := hlots l (List.mem_cons_self l ls)
    have hls := fun x hx => hlots x (List.mem_cons_of_mem l hx)
    rw [sellFromLots]
    by_cases hstop : r ≤ ε
    · rw [if_pos hstop]
    · rw [if_neg hstop]
      have hrpos : 0 < r := lt_of_le_of_lt hε (lt_of_not_le hstop)
      have htakenn : 0 ≤ min l.qty r := le_min hl hrpos.le
      by_cases hpop : l.qty - min l.qty r ≤ ε
      · rw [if_pos hpop, lotsQty_cons]
        have := lotsQty_sellFromLots_le hε ls (r - min l.qty r) hls
        linarith
      · rw [if_neg hpop, lotsQty_cons, lotsQty_cons]
        dsimp only
        linarith

lemma lotsQty_sellFromLots_consume {ε : ℚ} (hε : 0 ≤ ε) :
    ∀ (lots : List Lot) (r : ℚ), (∀ l ∈ lots, 0 ≤ l.qty) → lotsQty lots ≤ r →
      lotsQty (sellFromLots ε r lots) ≤ ε
  | [], r, _, _ => by
    rw [sellFromLots, lotsQty_nil]
    exact hε
  | l :: ls, r, hlots, hler => by
    have hl := hlots l (List.mem_cons_self l ls)
    have hls := fun x hx => hlots x (List.mem_cons_of_mem l hx)
    have hlsnn : 0 ≤ lotsQty ls := by
      have : ∀ x ∈ List.map Lot.qty ls, 0 ≤ x := by
        intro x hx
        obtain ⟨a, ha, rfl⟩ := List.mem_map.mp hx
        exact hls a ha
      exact List.sum_nonneg this
    rw [lotsQty_cons] at hler
    rw [sellFromLots]
    by_cases hstop : r ≤ ε
    · rw [if_pos hstop, lotsQty_cons]
      linarith
    · rw [if_neg hstop]
      have htake : min l.qty r = l.qty := min_eq_left (by linarith)
      have hpop : l.qty - min l.qty r ≤ ε := by
        rw [htake]
        simpa using hε
      rw [if_pos hpop, htake]
      exact lotsQty_sellFromLots_consume hε ls (r - l.qty) hls (by linarith)

lemma fifoFold_eq_exact {u ε : ℚ} (hε : 0 ≤ ε) (hu : ε < u) :
    ∀ (rows : List Trade) (lots : List Lot),
      (∀ t ∈ rows, IsMulOf u t.qty ∧ 0 < t.qty) →
      (∀ l ∈ lots, IsMulOf u l.qty ∧ 0 < l.qty) →
      rows.foldl (fifoStep ε) lots = rows.foldl (fifoStep 0) lots ∧
      (∀ l ∈ rows.foldl (fifoStep 0) lots, IsMulOf u l.qty ∧ 0 < l.qty)
  | [], lots, _, hlots => ⟨rfl, hlots⟩
  | t :: rest, lots, hrows, hlots => by
    have ht := hrows t (List.mem_cons_self t rest)
    have hrest := fun x hx => hrows x (List.mem_cons_of_mem t hx)
    rw [List.foldl_cons, List.foldl_cons]
    cases hside : t.side with
    | BUY =>
      have hstep : fifoStep ε lots t = lots ++ [⟨t.qty, t.price, t.ts⟩] := by
        rw [fifoStep, hside]
      have hstep0 : fifoStep 0 lots t = lots ++ [⟨t.qty, t.price, t.ts⟩] := by
        rw [fifoStep, hside]
      rw [hstep, hstep0]
      refine fifoFold_eq_exact hε hu rest _ hrest ?_
      intro l hl
      rcases List.mem_append.mp hl with h | h
      · exact hlots l h
      · rcases List.mem_singleton.mp h with rfl
        exact ht
    | SELL =>
      have hsell := sellFromLots_eq_exact hε hu lots t.qty ht.1 hlots
      have hstep : fifoStep ε lots t = sellFromLots ε t.qty lots := by
        rw [fifoStep, hside]
      have hstep0 : fifoStep 0 lots t = sellFromLots 0 t.qty lots := by
        rw [fifoStep, hside]
      rw [hstep, hstep0, hsell.1]
      exact fifoFold_eq_exact hε hu rest _ hrest hsell.2

lemma fifoFold_nonneg {ε : ℚ} :
    ∀ (rows : List Trade) (lots : List Lot),
      (∀ l ∈ lots, 0 ≤ l.qty) → (∀ t ∈ rows, 0 ≤ t.qty) →
      ∀ l ∈ rows.foldl (fifoStep ε) lots, 0 ≤ l.qty
  | [], _, hlots, _ => hlots
  | t :: rest, lots, hlots, hrows => by
    have ht := hrows t (List.mem_cons_self t rest)
    have hrest := fun x hx => hrows x (List.mem_cons_of_mem t hx)
    rw [List.foldl_cons]
    refine fifoFold_nonneg rest _ ?_ hrest
    rw [fifoStep]
    cases t.side with
    | BUY =>
      intro l hl
      rcases List.mem_append.mp hl with h | h
      · exact hlots l h
      · rcases List.mem_singleton.mp h with rfl
        exact ht
    | SELL => exact sellFromLots_nonneg lots t.qty hlots

lemma fifoFold_sum :
    ∀ (rows : List Trade) (lots : List Lot),
      (∀ l ∈ lots, 0 ≤ l.qty) → (∀ t ∈ rows, 0 ≤ t.qty) →
      (∀ p q, rows = p ++ q → sellTotal p ≤ lotsQty lots + buyTotal p) →
      lotsQty (rows.foldl (fifoStep 0) lots) = lotsQty lots + buyTotal rows - sellTotal rows
  | [], lots, _, _, _ => by
    rw [List.foldl_nil, buyTotal, sellTotal]
    ring
  | t :: rest, lots, hlots, hrows, hcond => by
    have ht := hrows t (List.mem_cons_self t rest)
    have hrest := fun x hx => hrows x (List.mem_cons_of_mem t hx)
    rw [List.foldl_cons, buyTotal, sellTotal]
    cases hside : t.side with
    | BUY =>
      have hstep : fifoStep 0 lots t = lots ++ [⟨t.qty, t.price, t.ts⟩] := by
        rw [fifoStep, hside]
      have hlots2 : ∀ l ∈ lots ++ [(⟨t.qty, t.price, t.ts⟩ : Lot)], 0 ≤ l.qty := by
        intro l hl
        rcases List.mem_append.mp hl with h | h
        · exact hlots l h
        · rcases List.mem_singleton.mp h with rfl
          exact ht
      have hsum2 : lotsQty (lots ++ [(⟨t.qty, t.price, t.ts⟩ : Lot)]) = lotsQty lots + t.qty := by
        rw [lotsQty_append, lotsQty_cons, lotsQty_nil]
        ring
      have hcond2 : ∀ p q, rest = p ++ q →
          sellTotal p ≤ lotsQty (lots ++ [(⟨t.qty, t.price, t.ts⟩ : Lot)]) + buyTotal p := by
        intro p q hpq
        have := hcond (t :: p) q (by rw [hpq, List.cons_append])
        rw [sellTotal, buyTotal, hside] at this
        dsimp only at this
        rw [hsum2]
        linarith
      rw [hstep, fifoFold_sum rest _ hlots2 hrest hcond2, hsum2]
      ring
    | SELL =>
      have hstep : fifoStep 0 lots t = sellFromLots 0 t.qty lots := by
        rw [fifoStep, hside]
      have hle : t.qty ≤ lotsQty lots := by
        have := hcond [t] rest (by rw [List.singleton_append])
        rw [sellTotal, sellTotal, buyTotal, buyTotal, hside] at this
        dsimp only at this
        linarith
      have hsum2 : lotsQty (sellFromLots 0 t.qty lots) = lotsQty lots - t.qty :=
        lotsQty_sellFromLots_zero lots t.qty ht hle hlots
      have hlots2 : ∀ l ∈ sellFromLots 0 t.qty lots, 0 ≤ l.qty :=
        sellFromLots_nonneg lots t.qty hlots
      have hcond2 : ∀ p q, rest = p ++ q →
          sellTotal p ≤ lotsQty (sellFromLots 0 t.qty lots) + buyTotal p := by
        intro p q hpq
        have := hcond (t :: p) q (by rw [hpq, List.cons_append])
        rw [sellTotal, buyTotal, hside] at this
        dsimp only at this
        rw [hsum2]
        linarith
      rw [hstep, fifoFold_sum rest _ hlots2 hrest hcond2, hsum2]
      ring

lemma fifo_position_def (rows : List Trade) :
    fifo_position rows =
      if lotsQty (fifoLots eps rows) ≤ eps then (0, 0, none)
      else (lotsQty (fifoLots eps rows),
            lotsNotional (fifoLots eps rows) / lotsQty (fifoLots eps rows),
            (fifoLots eps rows).head?.map Lot.ts) := rfl

lemma eps_nonneg : (0 : ℚ) ≤ eps := by norm_num [eps]

/-- C1 (amended): for a trade sequence whose quantities are positive integer
multiples of a common unit `u` larger than the code's `1e-18` epsilon, and
in which no initial segment sells more than it has bought, the FIFO replay
`fifo_position` yields an open quantity equal to total BUYs minus total
SELLs, and — when the position is open — its lots are exactly the lots of
the exact (epsilon-free) FIFO consumption and the average entry is their
quantity-weighted mean price. -/
theorem C1_fifo_replay (u : ℚ) (rows : List Trade)
    (hu : eps < u)
    (hq : ∀ t ∈ rows, IsMulOf u t.qty ∧ 0 < t.qty)
    (hpre : ∀ p q, rows = p ++ q → sellTotal p ≤ buyTotal p) :
    (fifo_position rows).1 = buyTotal rows - sellTotal rows ∧
    ((fifo_position rows).1 ≠ 0 →
      fifoLots eps rows = fifoLots 0 rows ∧
      (fifo_position rows).2.1 = lotsVwap (fifoLots 0 rows)) := by
  have hε := eps_nonneg
  obtain ⟨hEq, hInv⟩ :=
    fifoFold_eq_exact hε hu rows [] hq (by intro l hl; cases hl)
  have hEq' : fifoLots eps rows = fifoLots 0 rows := hEq
  have hqnn : ∀ t ∈ rows, 0 ≤ t.qty := fun t ht => (hq t ht).2.le
  have hcond : ∀ p q, rows = p ++ q → sellTotal p ≤ lotsQty [] + buyTotal p := by
    intro p q hpq
    rw [lotsQty_nil]
    have := hpre p q hpq
    linarith
  have hSum : lotsQty (fifoLots 0 rows) = buyTotal rows - sellTotal rows := by
    have := fifoFold_sum rows [] (by intro l hl; cases hl) hqnn hcond
    rw [lotsQty_nil] at this
    rw [fifoLots]
    linarith
  have hMul : IsMulOf u (lotsQty (fifoLots 0 rows)) :=
    lotsQty_isMulOf _ fun l hl => (hInv l hl).1
  rw [fifo_position_def, hEq', hSum]
  by_cases h : buyTotal rows - sellTotal rows ≤ eps
  · rw [if_pos h]
    have h0 : buyTotal rows - sellTotal rows = 0 := by
      rw [← hSum]
      rw [hSum] at hMul ⊢
      exact (hMul.le_eps_iff hε hu).mp h
    refine ⟨by rw [h0], ?_⟩
    intro hne
    exact absurd rfl hne
  · rw [if_neg h]
    refine ⟨rfl, ?_⟩
    intro _
    exact ⟨rfl, by rw [lotsVwap, hSum]⟩

/-- Concrete trades for the C1 witness: BUY 1@100, BUY 1@110, SELL 1. -/
def exC1 : List Trade :=
  [⟨Side.BUY, 1, 100, 0⟩, ⟨Side.BUY, 1, 110, 1⟩, ⟨Side.SELL, 1, 0, 2⟩]

theorem C1_fifo_replay_witness :
    (fifo_position exC1).1 = buyTotal exC1 - sellTotal exC1 ∧
    fifo_position exC1 = (1, 110, some 1) := by
  constructor
  · refine (C1_fifo_replay 1 exC1 (by norm_num [eps]) ?_ ?_).1
    · intro t ht
      simp only [exC1, List.mem_cons, List.not_mem_nil, or_false] at ht
      rcases ht with rfl | rfl | rfl <;> exact ⟨⟨1, by norm_num⟩, by norm_num⟩
    · intro p q hpq
      rcases p with _ | ⟨a, _ | ⟨b, _ | ⟨c, _ | ⟨d, p⟩⟩⟩⟩
      · norm_num [sellTotal, buyTotal]
      · simp only [exC1, List.cons_append, List.cons.injEq, List.nil_eq] at hpq
        obtain ⟨rfl, -⟩ := hpq
        norm_num [sellTotal, buyTotal]
      · simp only [exC1, List.cons_append, List.cons.injEq, List.nil_eq] at hpq
        obtain ⟨rfl, rfl, -⟩ := hpq
        norm_num [sellTotal, buyTotal]
      · simp only [exC1, List.cons_append, List.cons.injEq, List.nil_eq] at hpq
        obtain ⟨rfl, rfl, rfl, -⟩ := hpq
        norm_num [sellTotal, buyTotal]
      · simp only [exC1, List.cons_append, List.cons.injEq, List.nil_eq] at hpq
        obtain ⟨-, -, -, h⟩ := hpq
        exact absurd h (by simp)
  · norm_num [exC1, fifo_position, fifoLots, fifoStep, sellFromLots, lotsQty,
      lotsNotional, eps]

/-- Sequence refuting C1 as stated: an ordered history can begin with a
SELL; total SELL equals total BUY but the replayed open quantity is 1. -/
def exC1a : List Trade := [⟨Side.SELL, 1, 100, 0⟩, ⟨Side.BUY, 1, 100, 1⟩]

/-- Sequence refuting C1 as stated: a single BUY of `1e-19`, below the
code's `1e-18` epsilon, replays to an open quantity of 0. -/
def exC1b : List Trade := [⟨Side.BUY, 1 / 10 ^ 19, 100, 0⟩]

theorem C1_fifo_replay_cex :
    (sellTotal exC1a ≤ buyTotal exC1a ∧
      (fifo_position exC1a).1 ≠ buyTotal exC1a - sellTotal exC1a) ∧
    (sellTotal exC1b ≤ buyTotal exC1b ∧
      (fifo_position exC1b).1 ≠ buyTotal exC1b - sellTotal exC1b) := by
  refine ⟨⟨?_, ?_⟩, ?_, ?_⟩ <;>
    norm_num [exC1a, exC1b, fifo_position, fifoLots, fifoStep, sellFromLots,
      lotsQty, lotsNotional, eps, buyTotal, sellTotal]

/-- C7: the derived position snapshot always has a non-negative open
quantity; when the open quantity is 0 the snapshot is exactly
`(0.0, 0.0, None)`; and a SELL whose quantity covers the whole open lot
total leaves the open quantity at 0 (the excess is silently discarded). -/
theorem C7_position_invariants (rows : List Trade) (q px : ℚ) (t : ℤ)
    (hrows : ∀ tr ∈ rows, 0 ≤ tr.qty)
    (hover : lotsQty (fifoLots eps rows) ≤ q) :
    0 ≤ (fifo_position rows).1 ∧
    ((fifo_position rows).1 = 0 → fifo_position rows = (0, 0, none)) ∧
    (fifo_position (rows ++ [⟨Side.SELL, q, px, t⟩])).1 = 0 := by
  have hε := eps_nonneg
  refine ⟨?_, ?_, ?_⟩
  · rw [fifo_position_def]
    split_ifs with h
    · norm_num
    · show 0 ≤ lotsQty (fifoLots eps rows)
      exact le_of_lt (lt_of_le_of_lt hε (lt_of_not_le h))
  · rw [fifo_position_def]
    split_ifs with h
    · intro _; rfl
    · intro h0
      have h1 : lotsQty (fifoLots eps rows) = 0 := h0
      exact absurd (h1 ▸ lt_of_le_of_lt hε (lt_of_not_le h)) (lt_irrefl 0)
  · have hlots : ∀ l ∈ fifoLots eps rows, 0 ≤ l.qty :=
      fifoFold_nonneg rows [] (by intro l hl; cases hl) hrows
    have hfold : fifoLots eps (rows ++ [⟨Side.SELL, q, px, t⟩]) =
        sellFromLots eps q (fifoLots eps rows) := by
      rw [fifoLots, List.foldl_append, List.foldl_cons, List.foldl_nil]
      rfl
    rw [fifo_position_def, hfold,
      if_pos (lotsQty_sellFromLots_consume hε _ q hlots hover)]

theorem C7_position_invariants_witness :
    0 ≤ (fifo_position [(⟨Side.BUY, 1, 100, 0⟩ : Trade)]).1 ∧
    (fifo_position ([(⟨Side.BUY, 1, 100, 0⟩ : Trade)] ++ [⟨Side.SELL, 2, 100, 1⟩])).1 = 0 := by
  have h := C7_position_invariants [(⟨Side.BUY, 1, 100, 0⟩ : Trade)] 2 100 1
    (by intro tr htr
        simp only [List.mem_singleton] at htr
        rw [htr]
        norm_num)
    (by norm_num [fifoLots, fifoStep, sellFromLots, lotsQty, eps])
  exact ⟨h.1, h.2.2⟩

lemma round_dec_le {v : ℚ} (dp : ℕ) (hv : 0 ≤ v) : round_dec v dp ≤ v := by
  rw [round_dec, if_pos hv]
  have hE : (0 : ℚ) < 10 ^ dp := by positivity
  rw [div_le_iff₀ hE]
  exact Int.floor_le (v * 10 ^ dp)

lemma round_dec_nonneg {v : ℚ} (dp : ℕ) (hv : 0 ≤ v) : 0 ≤ round_dec v dp := by
  rw [round_dec, if_pos hv]
  have hE : (0 : ℚ) < 10 ^ dp := by positivity
  apply div_nonneg _ hE.le
  exact_mod_cast Int.floor_nonneg.mpr (by positivity)

lemma round_dec_nonpos {v : ℚ} (dp : ℕ) (hv : v ≤ 0) : round_dec v dp ≤ 0 := by
  rw [round_dec]
  have hE : (0 : ℚ) < 10 ^ dp := by positivity
  split_ifs with h
  · have hv0 : v = 0 := le_antisymm hv h
    simp [hv0]
  · apply div_nonpos_of_nonpos_of_nonneg _ hE.le
    have h2 : v * 10 ^ dp ≤ ((0 : ℤ) : ℚ) := by
      push_cast
      exact mul_nonpos_of_nonpos_of_nonneg hv hE.le
    exact_mod_cast Int.ceil_le.mpr h2

lemma round_dec_zero (dp : ℕ) : round_dec 0 dp = 0 := by
  simp [round_dec]

lemma round_dec_decimals (v : ℚ) (dp : ℕ) : ∃ n : ℤ, round_dec v dp * 10 ^ dp = (n : ℚ) := by
  rw [round_dec]
  have hE : (10 : ℚ) ^ dp ≠ 0 := by positivity
  split_ifs with h
  · exact ⟨⌊v * 10 ^ dp⌋, by field_simp⟩
  · exact ⟨⌈v * 10 ^ dp⌉, by field_simp⟩

/-- C2: the sized quantity, after truncation to `dp` decimals, never has
notional above `min(max_per_trade, available_balance)` (for the natural
non-negative balance inputs); `round_dec` never rounds a non-negative value
up and produces at most `dp` decimal places; and sizing returns quantity 0
whenever the price or the budget is not positive. -/
theorem C2_sizing_bound (price max_per avail : ℚ) (dp : ℕ)
    (hp : 0 < price) (hm : 0 ≤ max_per) (ha : 0 ≤ avail) :
    round_dec (size_for_trade price max_per avail) dp * price ≤ min max_per avail ∧
    (∀ v : ℚ, 0 ≤ v →
      round_dec v dp ≤ v ∧ ∃ n : ℤ, round_dec v dp * 10 ^ dp = (n : ℚ)) ∧
    (∀ p m a : ℚ, p ≤ 0 ∨ min m a ≤ 0 → size_for_trade p m a = 0) := by
  have hsize0 : ∀ p m a : ℚ, p ≤ 0 ∨ min m a ≤ 0 → size_for_trade p m a = 0 := by
    intro p m a h
    rw [size_for_trade]
    rcases h with h | h
    · rw [if_pos (Or.inr h)]
    · rw [if_pos (Or.inl h)]
  refine ⟨?_, fun v hv => ⟨round_dec_le dp hv, round_dec_decimals v dp⟩, hsize0⟩
  have hb : 0 ≤ min max_per avail := le_min hm ha
  by_cases h0 : min max_per avail ≤ 0
  · rw [hsize0 price max_per avail (Or.inr h0), round_dec_zero]
    linarith [le_antisymm h0 hb]
  · have hpos : 0 < min max_per avail := lt_of_not_le h0
    have hsz : size_for_trade price max_per avail = min max_per avail / price := by
      rw [size_for_trade, if_neg]
      push_neg
      exact ⟨lt_of_not_le h0, hp⟩
    have hsznn : 0 ≤ size_for_trade price max_per avail := by
      rw [hsz]
      positivity
    have hle := round_dec_le dp hsznn
    calc round_dec (size_for_trade price max_per avail) dp * price
        ≤ size_for_trade price max_per avail * price :=
          mul_le_mul_of_nonneg_right hle hp.le
      _ = min max_per avail := by
          rw [hsz, div_mul_cancel₀ _ (ne_of_gt hp)]

theorem C2_sizing_bound_witness :
    (0 : ℚ) < 3 ∧ (0 : ℚ) ≤ 10 ∧
    round_dec (size_for_trade 3 10 10) 0 * 3 ≤ min (10 : ℚ) 10 ∧
    round_dec (size_for_trade 3 10 10) 0 = 3 := by
  refine ⟨by norm_num, by norm_num,
    (C2_sizing_bound 3 10 10 0 (by norm_num) (by norm_num) (by norm_num)).1, ?_⟩
  norm_num [size_for_trade, round_dec]

/-- C3: with an open position (`pos_qty > 0`, `avg_entry > 0`), a candidate
BUY at a price above `avg_entry * (1 - dca_step_bps/10000)` results in no
submitted order in the engine's worker loop, and is independently
downgraded to HOLD by the decision layer's `_enforce_dca`. -/
theorem C3_dca_guard (live : Bool)
    (price pos_qty avg_entry dca_step_bps free_quote rs_usdt max_per fee_bps
      min_notional slippage_bps : ℚ) (dp_price dp_qty : ℕ)
    (hq : 0 < pos_qty) (ha : 0 < avg_entry)
    (hpx : avg_entry * (1 - dca_step_bps / 10000) < price) :
    buyPath live price pos_qty avg_entry dca_step_bps free_quote rs_usdt max_per
      fee_bps min_notional slippage_bps dp_price dp_qty = none ∧
    ∀ d : Decision, d.action = "BUY" →
      (enforce_dca price pos_qty avg_entry d dca_step_bps).action = "HOLD" := by
  constructor
  · simp only [buyPath]
    split_ifs <;> try rfl
    all_goals exact absurd (And.intro hq (And.intro ha hpx)) (by assumption)
  · intro d hd
    rw [enforce_dca, if_pos ⟨hq, ha, hd, hpx⟩]

theorem C3_dca_guard_witness :
    (0 : ℚ) < 1 ∧ (0 : ℚ) < 100 ∧ (100 : ℚ) * (1 - 20 / 10000) < 9981 / 100 ∧
    buyPath false (9981 / 100) 1 100 20 0 1000 10 20 5 10 2 4 = none ∧
    (enforce_dca (9981 / 100) 1 100 ⟨"BUY", 7 / 10, none, "x"⟩ 20).action = "HOLD" := by
  have h := C3_dca_guard false (9981 / 100) 1 100 20 0 1000 10 20 5 10 2 4
    (by norm_num) (by norm_num) (by norm_num)
  exact ⟨by norm_num, by norm_num, by norm_num, h.1, h.2 ⟨"BUY", 7 / 10, none, "x"⟩ rfl⟩

/-- C4: a SELL whose spot price is below the breakeven price is skipped
unless the stop-loss or time-stop condition holds; and when the spot price
is at or above breakeven, or either force-allow condition holds, the
profit-floor guard never rejects — the outcome is exactly that of the
earlier sizing/dust stage. -/
theorem C4_profit_floor (live : Bool) (price slippage_bps max_per free_base pos_qty
    avg_entry min_notional fee_bps min_profit_bps stop_loss_pct time_stop_min : ℚ)
    (age_min : Option ℚ) (dp_price dp_qty : ℕ) :
    (price < breakevenPx avg_entry fee_bps min_profit_bps →
      allowStop price avg_entry stop_loss_pct = false →
      allowTime age_min time_stop_min = false →
      sellPath live price slippage_bps max_per free_base pos_qty avg_entry min_notional
        fee_bps min_profit_bps stop_loss_pct time_stop_min age_min dp_price dp_qty = none) ∧
    ((breakevenPx avg_entry fee_bps min_profit_bps ≤ price ∨
        allowStop price avg_entry stop_loss_pct = true ∨
        allowTime age_min time_stop_min = true) →
      sellPath live price slippage_bps max_per free_base pos_qty avg_entry min_notional
        fee_bps min_profit_bps stop_loss_pct time_stop_min age_min dp_price dp_qty =
        sellSize live price slippage_bps max_per free_base pos_qty min_notional
          dp_price dp_qty) := by
  constructor
  · intro hlt hstop htime
    rw [sellPath]
    rcases hs : sellSize live price slippage_bps max_per free_base pos_qty min_notional
        dp_price dp_qty with _ | ⟨q, px⟩
    · rfl
    · dsimp only
      rw [if_pos ⟨hlt, by simp [hstop, htime]⟩]
  · intro hforce
    rw [sellPath]
    rcases hs : sellSize live price slippage_bps max_per free_base pos_qty min_notional
        dp_price dp_qty with _ | ⟨q, px⟩
    · rfl
    · dsimp only
      rw [if_neg]
      rintro ⟨h1, h2⟩
      rcases hforce with h | h | h
      · exact absurd h1 (not_lt.mpr h)
      · rw [h] at h2
        simp at h2
      · rw [h] at h2
        simp at h2

theorem C4_profit_floor_witness :
    (1003 : ℚ) / 10 < breakevenPx 100 20 15 ∧
    allowStop (1003 / 10) 100 0 = false ∧
    allowTime none 90 = false ∧
    sellPath false (1003 / 10) 0 10 0 1 100 5 20 15 0 90 none 2 4 = none := by
  have h := (C4_profit_floor false (1003 / 10) 0 10 0 1 100 5 20 15 0 90 none 2 4).1
  refine ⟨?_, ?_, ?_, ?_⟩
  · norm_num [breakevenPx]
  · norm_num [allowStop]
  · rfl
  · exact h (by norm_num [breakevenPx]) (by norm_num [allowStop]) rfl

lemma round_dec_min_bounds {a b : ℚ} {dp : ℕ}
    (h : 0 < round_dec (min a b) dp) :
    round_dec (min a b) dp ≤ a ∧ round_dec (min a b) dp ≤ b := by
  have hfnn : 0 ≤ min a b := by
    by_contra hneg
    push_neg at hneg
    exact absurd (round_dec_nonpos dp hneg.le) (not_le.mpr h)
  have hle := round_dec_le dp hfnn
  exact ⟨le_trans hle (min_le_left _ _), le_trans hle (min_le_right _ _)⟩

lemma sellSize_bounds {live : Bool} {price slippage_bps max_per free_base pos_qty
    min_notional : ℚ} {dp_price dp_qty : ℕ} {q px : ℚ}
    (h : sellSize live price slippage_bps max_per free_base pos_qty min_notional
      dp_price dp_qty = some (q, px)) :
    0 < q ∧ q ≤ pos_qty ∧ (live = true → q ≤ free_base) := by
  rw [sellSize] at h
  dsimp only at h
  split_ifs at h with hdust hlive hg hg2
  · push_neg at hg
    simp only [Option.some.injEq, Prod.mk.injEq] at h
    obtain ⟨rfl, rfl⟩ := h
    have hb := round_dec_min_bounds hg.2
    exact ⟨hg.2, hb.2, fun _ => le_trans hb.1 (min_le_right _ _)⟩
  · push_neg at hg2
    simp only [Option.some.injEq, Prod.mk.injEq] at h
    obtain ⟨rfl, rfl⟩ := h
    have hb := round_dec_min_bounds hg2.2
    exact ⟨hg2.2, hb.2, fun hl => absurd hl hlive⟩

/-- C10: the worker's SELL path never submits a quantity above the open
FIFO position (and in live mode never above the free base balance), and a
dust position (`<= 1e-12`) submits nothing at all. -/
theorem C10_sell_position_cap (live : Bool) (price slippage_bps max_per free_base pos_qty
    avg_entry min_notional fee_bps min_profit_bps stop_loss_pct time_stop_min : ℚ)
    (age_min : Option ℚ) (dp_price dp_qty : ℕ) :
    (pos_qty ≤ dust →
      sellPath live price slippage_bps max_per free_base pos_qty avg_entry min_notional
        fee_bps min_profit_bps stop_loss_pct time_stop_min age_min dp_price dp_qty = none) ∧
    (∀ q px, sellPath live price slippage_bps max_per free_base pos_qty avg_entry
        min_notional fee_bps min_profit_bps stop_loss_pct time_stop_min age_min
        dp_price dp_qty = some (q, px) →
      q ≤ pos_qty ∧ (live = true → q ≤ free_base)) := by
  constructor
  · intro hdust
    have hs : sellSize live price slippage_bps max_per free_base pos_qty min_notional
        dp_price dp_qty = none := by
      simp only [sellSize]
      rw [if_pos hdust]
    rw [sellPath, hs]
  · intro q px h
    rw [sellPath] at h
    rcases hs : sellSize live price slippage_bps max_per free_base pos_qty min_notional
        dp_price dp_qty with _ | ⟨a, b⟩
    · rw [hs] at h
      cases h
    · rw [hs] at h
      dsimp only at h
      split_ifs at h
      simp only [Option.some.injEq, Prod.mk.injEq] at h
      obtain ⟨rfl, rfl⟩ := h
      have hb := sellSize_bounds hs
      exact ⟨hb.2.1, hb.2.2⟩

theorem C10_sell_position_cap_witness :
    (1 : ℚ) / 10 ^ 13 ≤ dust ∧
    sellPath false 100 0 10 0 (1 / 10 ^ 13) 100 5 20 15 (8 / 1000) 90 none 2 4 = none := by
  refine ⟨by norm_num [dust], ?_⟩
  exact (C10_sell_position_cap false 100 0 10 0 (1 / 10 ^ 13) 100 5 20 15 (8 / 1000) 90
    none 2 4).1 (by norm_num [dust])

/-- C5: within the attempt budget, an attempt is retried exactly on a
transient network fault or on response status 429, 418, or 5xx; any other
4xx response is terminal with no retry; a retried response with a numeric
`Retry-After` header of `t` seconds waits exactly `max 0 t` (hence at
least `t`) before the next attempt; without the header the delay is the
capped exponential backoff plus the sampled jitter, bounded by the cap
plus the jitter bound 0.25. -/
theorem C5_retry_policy (s : ℕ) (ra : Option ℚ) (e : NetExc) (a m : ℕ) (j t : ℚ)
    (ham : a < m) :
    ((signedStep (Outcome.resp s ra) a m j).isRetry = true ↔
      (s = 429 ∨ s = 418 ∨ (500 ≤ s ∧ s ≤ 599))) ∧
    ((signedStep (Outcome.exc e) a m j).isRetry = true ↔ isTransient e = true) ∧
    (400 ≤ s → s < 500 → s ≠ 429 → s ≠ 418 →
      signedStep (Outcome.resp s ra) a m j = StepRes.terminal) ∧
    (should_retry none (some s) = true →
      signedStep (Outcome.resp s ra) a m j = StepRes.retryDelay (retry_after ra a j)) ∧
    (retry_after (some t) a j = max 0 t ∧ t ≤ retry_after (some t) a j) ∧
    (0 ≤ j → j ≤ 1 / 4 →
      retry_after none a j = min backoff_cap (backoff_base * 2 ^ (a - 1)) + j ∧
      retry_after none a j ≤ backoff_cap + 1 / 4) := by
  have hiff : should_retry none (some s) = true ↔
      (s = 429 ∨ s = 418 ∨ (500 ≤ s ∧ s ≤ 599)) := by
    rw [should_retry]
    simp only [Bool.or_eq_true, beq_iff_eq, Bool.and_eq_true, decide_eq_true_eq]
    tauto
  refine ⟨?_, ?_, ?_, ?_, ⟨rfl, le_max_right 0 t⟩, ?_⟩
  · rw [signedStep]
    by_cases hr : should_retry none (some s) = true
    · rw [if_pos hr]
      exact iff_of_true rfl (hiff.mp hr)
    · rw [if_neg hr]
      refine iff_of_false ?_ ((not_iff_not.mpr hiff).mp hr)
      split_ifs <;> simp [StepRes.isRetry]
  · rw [signedStep]
    by_cases ht : isTransient e = true
    · rw [if_pos]
      · simp [StepRes.isRetry, ht]
      · simp [ht, ham]
    · rw [if_neg]
      · simp only [StepRes.isRetry, Bool.false_eq_true, false_iff]
        exact ht
      · simp [ht]
  · intro h400 h500 h429 h418
    have hnr : ¬ should_retry none (some s) = true := by
      rw [hiff]
      push_neg
      exact ⟨h429, h418, fun h5 => by omega⟩
    rw [signedStep, if_neg hnr, if_pos h400]
  · intro hr
    rw [signedStep, if_pos hr]
  · intro hj0 hj4
    refine ⟨rfl, ?_⟩
    rw [retry_after]
    have : min backoff_cap (backoff_base * 2 ^ (a - 1)) ≤ backoff_cap := min_le_left _ _
    linarith

theorem C5_retry_policy_witness :
    (0 : ℕ) < 5 ∧
    (signedStep (Outcome.resp 429 (some 2)) 1 5 0 =
      StepRes.retryDelay (retry_after (some 2) 1 0) ∧
      (2 : ℚ) ≤ retry_after (some 2) 1 0) ∧
    signedStep (Outcome.resp 400 none) 1 5 0 = StepRes.terminal := by
  have h := C5_retry_policy 429 (some 2) NetExc.otherExc 1 5 0 2 (by norm_num)
  have h400 := C5_retry_policy 400 none NetExc.otherExc 1 5 0 2 (by norm_num)
  refine ⟨by norm_num, ⟨h.2.2.2.1 (by rw [should_retry]; rfl), ?_⟩,
    h400.2.2.1 (by norm_num) (by norm_num) (by norm_num) (by norm_num)⟩
  exact h.2.2.2.2.1.2

/-- C6: the poller's fill price is `cquote / executed` when both are
non-zero and otherwise falls back to the reported limit price (the order's
stored limit price when the report carries none); a FILLED result with
executed quantity > 0 persists exactly one aggregated trade followed by
the status update; a PARTIALLY_FILLED result persists a price/status
update and no trade; a CANCELED, EXPIRED or REJECTED result persists the
status update and no trade. -/
theorem C6_reconciliation (o : OrderRow) (status : String) (executed cquote dprice : ℚ) :
    (executed ≠ 0 → cquote ≠ 0 →
      avg_fill_price o executed cquote dprice = cquote / executed) ∧
    ((executed = 0 ∨ cquote = 0) →
      avg_fill_price o executed cquote dprice =
        (if dprice ≠ 0 then dprice else o.price.getD 0)) ∧
    (status = "FILLED" → 0 < executed →
      reconcileOrder o status executed cquote dprice =
        [Effect.insertTrade o.symbol o.side (avg_fill_price o executed cquote dprice)
          executed o.client_order_id,
         Effect.setStatus o.client_order_id "FILLED"
           (some (avg_fill_price o executed cquote dprice))]) ∧
    (status = "PARTIALLY_FILLED" →
      reconcileOrder o status executed cquote dprice =
        [Effect.setStatus o.client_order_id "PARTIALLY_FILLED"
          (if executed ≠ 0 then some (avg_fill_price o executed cquote dprice) else none)] ∧
      (reconcileOrder o status executed cquote dprice).filter Effect.isInsertTrade = []) ∧
    ((status = "CANCELED" ∨ status = "EXPIRED" ∨ status = "REJECTED") →
      reconcileOrder o status executed cquote dprice =
        [Effect.setStatus o.client_order_id status
          (if executed ≠ 0 then some (avg_fill_price o executed cquote dprice) else none)] ∧
      (reconcileOrder o status executed cquote dprice).filter Effect.isInsertTrade = []) := by
  refine ⟨?_, ?_, ?_, ?_, ?_⟩
  · intro he hc
    rw [avg_fill_price, if_pos ⟨he, hc⟩]
  · intro h
    rw [avg_fill_price, if_neg]
    tauto
  · intro hst hex
    subst hst
    have hne : executed ≠ 0 := ne_of_gt hex
    rw [reconcileOrder]
    rw [if_neg (by simp), if_pos (by simp), if_pos ⟨rfl, hex⟩, if_pos hne]
    rfl
  · intro hst
    subst hst
    constructor
    · rw [reconcileOrder, if_pos (by simp)]
    · rw [reconcileOrder, if_pos (by simp)]
      simp [Effect.isInsertTrade]
  · intro hst
    have hne : ¬ (status = "NEW" ∨ status = "PARTIALLY_FILLED") := by
      rcases hst with h | h | h <;> subst h <;> simp
    have hterm : status = "FILLED" ∨ status = "CANCELED" ∨ status = "EXPIRED" ∨
        status = "REJECTED" := by tauto
    have hnotf : ¬ (status = "FILLED" ∧ 0 < executed) := by
      rcases hst with h | h | h <;> subst h <;> simp
    constructor
    · rw [reconcileOrder, if_neg hne, if_pos hterm, if_neg hnotf, List.nil_append]
    · rw [reconcileOrder, if_neg hne, if_pos hterm, if_neg hnotf, List.nil_append]
      simp [Effect.isInsertTrade]

theorem C6_reconciliation_witness :
    ((2 : ℚ) ≠ 0 ∧ (210 : ℚ) ≠ 0 ∧
      avg_fill_price ⟨"BTCUSDT", Side.BUY, some 100, 2, "NEW", "cid1"⟩ 2 210 100 = 105) ∧
    (0 : ℚ) < 2 ∧
    reconcileOrder ⟨"BTCUSDT", Side.BUY, some 100, 2, "NEW", "cid1"⟩ "FILLED" 2 210 100 =
      [Effect.insertTrade "BTCUSDT" Side.BUY 105 2 "cid1",
       Effect.setStatus "cid1" "FILLED" (some 105)] := by
  have h := C6_reconciliation ⟨"BTCUSDT", Side.BUY, some 100, 2, "NEW", "cid1"⟩
    "FILLED" 2 210 100
  have havg : avg_fill_price ⟨"BTCUSDT", Side.BUY, some 100, 2, "NEW", "cid1"⟩ 2 210 100
      = 105 := by
    rw [h.1 (by norm_num) (by norm_num)]
    norm_num
  refine ⟨⟨by norm_num, by norm_num, havg⟩, by norm_num, ?_⟩
  rw [h.2.2.1 rfl (by norm_num), havg]

/-- C9: the decision consumed by the engine always has an action in
`{BUY, SELL, HOLD}` and a confidence in `[0, 1]`, and any failure of the
decision call yields HOLD with confidence 0 instead of raising. -/
theorem C9_decision_sanitization (call : Except String RawDecision)
    (px qty avg step : ℚ) :
    ((llm_decide call px qty avg step).action = "BUY" ∨
      (llm_decide call px qty avg step).action = "SELL" ∨
      (llm_decide call px qty avg step).action = "HOLD") ∧
    0 ≤ (llm_decide call px qty avg step).confidence ∧
    (llm_decide call px qty avg step).confidence ≤ 1 ∧
    (∀ e, call = Except.error e →
      (llm_decide call px qty avg step).action = "HOLD" ∧
      (llm_decide call px qty avg step).confidence = 0) := by
  cases call with
  | error e =>
    refine ⟨Or.inr (Or.inr rfl), le_rfl, by norm_num [llm_decide], fun e' _ => ⟨rfl, rfl⟩⟩
  | ok data =>
    have hconf0 : (0 : ℚ) ≤ max 0 (min 1 (data.confidence.getD 0)) := le_max_left _ _
    have hconf1 : max 0 (min 1 (data.confidence.getD 0)) ≤ 1 :=
      max_le (by norm_num) (min_le_left _ _)
    rw [llm_decide, enforce_dca]
    split_ifs with h1 h2 <;>
      refine ⟨?_, ?_, ?_, fun e' he => by cases he⟩ <;>
      first
        | exact Or.inr (Or.inr rfl)
        | exact h1
        | exact h2
        | exact hconf0
        | exact hconf1
        | norm_num

theorem C9_decision_sanitization_witness :
    (llm_decide (Except.error "ConnectError") 100 0 0 20).action = "HOLD" ∧
    (llm_decide (Except.error "ConnectError") 100 0 0 20).confidence = 0 ∧
    0 ≤ (llm_decide (Except.error "ConnectError") 100 0 0 20).confidence ∧
    (llm_decide (Except.error "ConnectError") 100 0 0 20).confidence ≤ 1 := by
  have h := C9_decision_sanitization (Except.error "ConnectError") 100 0 0 20
  have he := h.2.2.2 "ConnectError" rfl
  exact ⟨he.1, he.2, h.2.1, h.2.2.1⟩

/-- C8 (amended): the client order id is generated before any network
placement call; in paper mode the cycle performs no placement and inserts
no order row — it persists exactly one trade row (after a status-update
attempt); in live mode nothing is persisted before the placement call (the
only event preceding it is the client-id generation) and exactly one order
row is inserted after it, with status NEW, recording the client id and the
(possibly empty) exchange-assigned id. -/
theorem C8_order_persistence (sym : String) (tsec : ℤ) (exch_id : String) :
    ((paperExec sym tsec).countP Ev.isPlaceOrder = 0 ∧
      (paperExec sym tsec).countP Ev.isInsertOrderDb = 0 ∧
      (paperExec sym tsec).filter Ev.isInsertTradeDb =
        [Ev.insertTradeDb (clientId sym tsec)]) ∧
    ((liveExec sym tsec exch_id).takeWhile (fun ev => !ev.isPlaceOrder) =
        [Ev.genClientId (clientId sym tsec)] ∧
      (liveExec sym tsec exch_id).filter Ev.isInsertOrderDb =
        [Ev.insertOrderDb (clientId sym tsec) exch_id "NEW"]) := by
  refine ⟨⟨?_, ?_, ?_⟩, ?_, ?_⟩
  · simp [paperExec, Ev.isPlaceOrder]
  · simp [paperExec, Ev.isInsertOrderDb]
  · simp [paperExec, Ev.isInsertTradeDb]
  · by_cases hex : exch_id = ""
    · simp [liveExec, hex, Ev.isPlaceOrder]
    · simp [liveExec, hex, Ev.isPlaceOrder]
  · by_cases hex : exch_id = ""
    · simp [liveExec, hex, Ev.isInsertOrderDb]
    · simp [liveExec, hex, Ev.isInsertOrderDb]

/-- C8 counterexample: in paper mode no order row is ever inserted (only a
trade row is), refuting "in paper mode an order row is persisted before
any send"; and in live mode the NEW order row is inserted even when the
placement response carried no server-acknowledged identifier (empty
exchange id). -/
theorem C8_order_persistence_cex :
    (paperExec "BTCUSDT" 1700000000).countP Ev.isInsertOrderDb = 0 ∧
    Ev.insertOrderDb (clientId "BTCUSDT" 1700000000) "" "NEW" ∈
      liveExec "BTCUSDT" 1700000000 "" := by
  constructor
  · simp [paperExec, Ev.isInsertOrderDb]
  · simp [liveExec]
